import Mathlib

/-!
Verification development for the clean-fair-rotations roster scheduler.

The definitions below are a shallow embedding of the TypeScript source in
`src/components/RosterScheduler.tsx` (with its near-duplicate variant) and of
the SQL schema in `supabase/migrations`.  Machine numbers are modelled as
`Nat`/`Int` (JavaScript numbers stay tiny here, no overflow is reachable),
the mutable per-member dictionaries become explicit functional state, and the
stable `Array.prototype.sort` (stability is guaranteed by the JS spec) is
modelled by `List.insertionSort`, which is stable.
-/

deriving instance DecidableEq for Except

namespace CleanFair

/-- A roster member as held in the component state: a stable unique id and a
display name.  The `color` field of the source is display-only and never read
by the scheduling logic, so it is omitted from the embedding. -/
structure Member where
  id : Nat
  name : String
deriving DecidableEq, Repr

/-- The mutable per-member dictionaries of `generateSchedule` /
`generateBalancedPreview`: `counts[id]` and `lastAssigned[id]`
(`lastAssignedWeek` in the preview), keyed by member id. -/
structure EngineState where
  counts : Nat → Nat
  lastAssigned : Nat → Int

/-- Initial engine state: `counts[m.id] = 0; lastAssigned[m.id] = -2`. -/
/- The source initialises the dictionaries for every member; ids outside the
roster are never read, so a total function with the same values is used. -/
def initState : EngineState := { counts := fun _ => 0, lastAssigned := fun _ => -2 }

/-- One `chosen.forEach` step: `counts[i]++; lastAssigned[i] = w`. -/
def assignMember (s : EngineState) (i : Nat) (w : Int) : EngineState :=
  { counts := fun j => if j = i then s.counts j + 1 else s.counts j,
    lastAssigned := fun j => if j = i then w else s.lastAssigned j }

/-- The sort comparator of the source, as a total preorder: ascending by
`counts`, ties broken ascending by `lastAssigned`.  The source's comparator
returns `counts[a] - counts[b]` and, on a tie, `lastAssigned[a] -
lastAssigned[b]`; sorting by that comparator is sorting by this relation. -/
def fairLe (s : EngineState) (a b : Member) : Prop :=
  s.counts a.id < s.counts b.id ∨
    (s.counts a.id = s.counts b.id ∧ s.lastAssigned a.id ≤ s.lastAssigned b.id)

instance (s : EngineState) : DecidableRel (fairLe s) := fun a b => by
  unfold fairLe; infer_instance

/-- The `filter(...).sort(...)` pipeline computing `availableMembers` for week
`w`: members not assigned in the immediately preceding week, stably sorted by
the fairness comparator. -/
def availableFor (s : EngineState) (members : List Member) (w : Nat) : List Member :=
  (members.filter (fun m => s.lastAssigned m.id < (w : Int) - 1)).insertionSort (fairLe s)

/-- One generated slot before it is flattened to names: the formatted date of
the week's Sunday together with the two chosen members
(`availableMembers[0]` and `availableMembers[1]`). -/
structure RawSlot where
  date : String
  first : Member
  second : Member
deriving DecidableEq, Repr

/-- A row of the component's `assignments` state: the formatted Sunday date
and the chosen members' names. -/
structure Assignment where
  date : String
  members : List String
deriving DecidableEq, Repr

/-- The errors `generateSchedule` reports by toast: the three up-front
feasibility failures, and the mid-generation dead end with its week index. -/
inductive GenError where
  | insufficientMembers
  | noPeriods
  | cannotAvoidConsecutive
  | schedulingConflict (weekIndex : Nat)
deriving DecidableEq, Repr

/-- The `for (weekIndex …)` loop of `generateSchedule`: at each week filter
and sort, fail with the week index if fewer than two members are available,
otherwise take the first two, bump their counters, and continue.  The final
engine state is returned alongside the slots so that runs over extended
period lists can be related to runs over their prefixes. -/
def scheduleLoop (members : List Member) :
    List String → Nat → EngineState → Except Nat (List RawSlot × EngineState)
  | [], _, s => .ok ([], s)
  | d :: ds, w, s =>
    match availableFor s members w with
    | a :: b :: _ =>
      match scheduleLoop members ds (w + 1)
          (assignMember (assignMember s a.id (w : Int)) b.id (w : Int)) with
      | .ok (rest, s₂) => .ok (⟨d, a, b⟩ :: rest, s₂)
      | .error e => .error e
    | _ => .error w

/-- `generateSchedule` up to the flattening of slots to name lists: the three
input checks in source order, then the generation loop from the initial
state.  `sundays` is the ordered period sequence produced by `getSundays`
(already formatted; the formatting itself is date plumbing outside the
engine). -/
def generateScheduleRaw (members : List Member) (sundays : List String) :
    Except GenError (List RawSlot) :=
  if members.length < 2 then .error .insufficientMembers
  else if sundays.length = 0 then .error .noPeriods
  else if 1 < sundays.length ∧ members.length < 4 then .error .cannotAvoidConsecutive
  else
    match scheduleLoop members sundays 0 initState with
    | .ok (raw, _) => .ok raw
    | .error w => .error (.schedulingConflict w)

/-- `newAssignments.push({date, members: chosen.map(c => c.name)})`. -/
def rawToAssignment (r : RawSlot) : Assignment := ⟨r.date, [r.first.name, r.second.name]⟩

/-- The full `generateSchedule` output: the `assignments` rows it would set on
success, or the reported error. -/
def generateSchedule (members : List Member) (sundays : List String) :
    Except GenError (List Assignment) :=
  (generateScheduleRaw members sundays).map (List.map rawToAssignment)

/-- The effect of a `generateSchedule` call on the component's `assignments`
state: `setAssignments(newAssignments)` runs only after the whole loop
succeeds; every failure path returns early, leaving the previous value. -/
def commitSchedule (prev : List Assignment) (members : List Member)
    (sundays : List String) : List Assignment :=
  match generateSchedule members sundays with
  | .ok plan => plan
  | .error _ => prev

/-- The `for (week …)` loop of `generateBalancedPreview`: identical selection
logic, but it records ids, and a starved week breaks out of the loop instead
of reporting an error.  `n` is the number of weeks still to produce. -/
def previewLoop (members : List Member) : Nat → Nat → EngineState → List (List Nat)
  | 0, _, _ => []
  | n + 1, w, s =>
    match availableFor s members w with
    | a :: b :: _ =>
      [a.id, b.id] ::
        previewLoop members n (w + 1)
          (assignMember (assignMember s a.id (w : Int)) b.id (w : Int))
    | _ => []

/-- `generateBalancedPreview(weeks)`.  The source's `weeks` is a JS number;
both call sites pass the non-negative `calculateWeeksNeeded()`, so it is
modelled as `Nat` and the guard `weeks <= 0` becomes `weeks = 0`. -/
def generateBalancedPreview (members : List Member) (weeks : Nat) : List (List Nat) :=
  if members.length < 2 ∨ weeks = 0 then []
  else
    let effectiveWeeks := if 1 < weeks ∧ members.length < 4 then 1 else weeks
    previewLoop members effectiveWeeks 0 initState

/-- `calculateWeeksNeeded`: `0` below two members, else `m / 2` for even `m`
and `m` for odd `m`. -/
def calculateWeeksNeeded (members : List Member) : Nat :=
  if members.length < 2 then 0
  else if members.length % 2 = 0 then members.length / 2 else members.length

/-- The two member ids of a raw slot. -/
def slotIds (r : RawSlot) : List Nat := [r.first.id, r.second.id]

/-- Number of periods in which the member with id `i` is assigned. -/
def assignCountIn (raw : List RawSlot) (i : Nat) : Nat :=
  (raw.filter (fun r => i ∈ slotIds r)).length

/-- Largest value of `f` over a member list (`0` on the empty list). -/
def maxBy (f : Member → Nat) : List Member → Nat
  | [] => 0
  | m :: ms => (ms.map f).foldr max (f m)

/-- Smallest value of `f` over a member list (`0` on the empty list). -/
def minBy (f : Member → Nat) : List Member → Nat
  | [] => 0
  | m :: ms => (ms.map f).foldr min (f m)

/-- The fairness gap of a plan: `max(count) - min(count)` over the per-member
assignment counts. -/
def countGap (members : List Member) (raw : List RawSlot) : Nat :=
  maxBy (fun m => assignCountIn raw m.id) members -
    minBy (fun m => assignCountIn raw m.id) members

/-- A fixed four-member roster in initial order, as in the spec's concrete
scenario 3. -/
def demoMembers : List Member := [⟨0, "A"⟩, ⟨1, "B"⟩, ⟨2, "C"⟩, ⟨3, "D"⟩]

/-! ### Persistence: the store tables touched by `saveRoster`

Supabase ids are uuids; they are modelled as `Nat` supplied by the caller
(the store generates them, the component never inspects them). -/

/-- A row of `public.rosters` as inserted by `saveRoster`. -/
structure RosterRow where
  id : Nat
  name : String
  startDate : String
  endDate : String
deriving DecidableEq, Repr

/-- A row of `public.roster_members` as inserted by `saveRoster`. -/
structure MemberRow where
  id : Nat
  rosterId : Nat
  name : String
deriving DecidableEq, Repr

/-- A row of `public.cleaning_assignments` as inserted by `saveRoster`
(the lifecycle columns added by the later migration all default and are not
part of the insert payload). -/
structure AssignmentRow where
  rosterId : Nat
  memberId : Nat
  assignmentDate : String
deriving DecidableEq, Repr

/-- The three tables `saveRoster` writes, each as an insertion-ordered list
of rows. -/
structure Database where
  rosters : List RosterRow
  rosterMembers : List MemberRow
  cleaningAssignments : List AssignmentRow
deriving DecidableEq, Repr

/-- JavaScript's `String.prototype.trim()`: strip leading and trailing
whitespace (modelled over the character list, since Lean's own
`String.trim` is opaque to kernel evaluation). -/
def trimChars (l : List Char) : List Char :=
  ((l.dropWhile Char.isWhitespace).reverse.dropWhile Char.isWhitespace).reverse

/-- String form of `trimChars`. -/
def trimName (s : String) : String := String.mk (trimChars s.data)

/-- The `memberNameToId` map built by `savedMembers.forEach(m => map[m.name] =
m.id)`: for a duplicated name the later assignment overwrites the earlier
one, so the last matching row wins. -/
def lastIdForName (rows : List MemberRow) (n : String) : Option Nat :=
  rows.foldl (fun acc r => if r.name = n then some r.id else acc) none

/-- The `assignmentInserts` array: for each assignment row, for each member
name, push a row if the name resolves in `memberNameToId` (a resolved uuid
string is always truthy). -/
def assignmentInserts (rosterId : Nat) (savedMembers : List MemberRow)
    (assignments : List Assignment) : List AssignmentRow :=
  assignments.flatMap (fun a =>
    a.members.filterMap (fun n =>
      (lastIdForName savedMembers n).map (fun i => ⟨rosterId, i, a.date⟩)))

/-- `saveRoster`: after the guard (`rosterName.trim()` non-empty, dates
picked — dates are always supplied here — and a non-empty generated
schedule), it inserts a fresh roster row, fresh member rows, and the
expanded assignment rows.  `newRosterId` and `newMemberIds` stand for the
store-generated uuids of the inserted rows.  Nothing is looked up by name
and nothing is deleted. -/
def saveRoster (db : Database) (rosterName startDate endDate : String)
    (members : List Member) (assignments : List Assignment)
    (newRosterId : Nat) (newMemberIds : List Nat) : Database :=
  if trimName rosterName = "" ∨ assignments = [] then db
  else
    let rosterRow : RosterRow := ⟨newRosterId, trimName rosterName, startDate, endDate⟩
    let savedMembers : List MemberRow :=
      (members.zip newMemberIds).map (fun p => ⟨p.2, newRosterId, p.1.name⟩)
    { rosters := db.rosters ++ [rosterRow],
      rosterMembers := db.rosterMembers ++ savedMembers,
      cleaningAssignments :=
        db.cleaningAssignments ++ assignmentInserts newRosterId savedMembers assignments }

/-! ### The persisted `cleaning_assignments` schema after the task-management
migration -/

/-- The tables of the schema, as foreign-key targets. -/
inductive TableRef where
  | rosters
  | rosterMembers
  | cleaningAssignments
deriving DecidableEq, Repr

/-- One column of a table as declared in the migrations: its name and, when
it carries a `REFERENCES` clause, the referenced table. -/
structure ColumnDef where
  columnName : String
  fkTarget : Option TableRef
deriving DecidableEq, Repr

/-- The columns of `public.cleaning_assignments`: the base table from the
first migration followed by the lifecycle columns added by the
task-management migration.  `swapped_with` is declared `REFERENCES
public.roster_members(id)` — it points at a member, not at another
assignment row. -/
def cleaningAssignmentsColumns : List ColumnDef :=
  [⟨"id", none⟩,
   ⟨"roster_id", some .rosters⟩,
   ⟨"member_id", some .rosterMembers⟩,
   ⟨"assignment_date", none⟩,
   ⟨"created_at", none⟩,
   ⟨"is_completed", none⟩,
   ⟨"completed_at", none⟩,
   ⟨"completed_by", some .rosterMembers⟩,
   ⟨"swapped_with", some .rosterMembers⟩,
   ⟨"swap_requested_at", none⟩,
   ⟨"swap_requested_by", some .rosterMembers⟩,
   ⟨"swap_status", none⟩]

/-- Foreign-key target of a named column of `cleaning_assignments`. -/
def fkTargetOf (c : String) : Option TableRef :=
  ((cleaningAssignmentsColumns.filter (fun d => d.columnName = c)).head?).bind
    ColumnDef.fkTarget

/-- The values admitted by the `CHECK (swap_status IN (...))` constraint;
the column itself is nullable (`DEFAULT NULL`), modelled as an `Option`. -/
inductive SwapStatus where
  | pending
  | accepted
  | rejected
  | cancelled
deriving DecidableEq, Repr

/-- A full `cleaning_assignments` row after the task-management migration.
Nullable columns are `Option`s; the `CHECK` list on `swap_status` is the
`SwapStatus` type. -/
structure CleaningAssignmentRow where
  id : Nat
  rosterId : Nat
  memberId : Nat
  assignmentDate : String
  isCompleted : Bool
  completedAt : Option String
  completedBy : Option Nat
  swappedWith : Option Nat
  swapRequestedAt : Option String
  swapRequestedBy : Option Nat
  swapStatus : Option SwapStatus
deriving DecidableEq, Repr

/-- The integrity constraints the schema places on a `cleaning_assignments`
row, given the ids present in the referenced tables: the `NOT NULL` columns
are non-optional by construction, the `CHECK` on `swap_status` holds by
construction, and every foreign key must resolve.  The schema states no
constraint tying `swap_status` to `swapped_with`. -/
def rowSchemaOk (rosterIds memberIds : List Nat) (r : CleaningAssignmentRow) : Prop :=
  r.rosterId ∈ rosterIds ∧ r.memberId ∈ memberIds ∧
    (∀ i, r.completedBy = some i → i ∈ memberIds) ∧
    (∀ i, r.swappedWith = some i → i ∈ memberIds) ∧
    (∀ i, r.swapRequestedBy = some i → i ∈ memberIds)

instance (rs ms : List Nat) (r : CleaningAssignmentRow) :
    Decidable (rowSchemaOk rs ms r) := by
  unfold rowSchemaOk; infer_instance

/-! ### The assignment lifecycle operations

The swap and completion transitions live in the extended `RosterScheduler`
variant bundled in `SUPABASE_KEEP_ALIVE_README.md`: `requestTaskSwap`,
`respondToSwapRequest` and `executeSwap`, each a single supabase
`.update(fields).eq('id', assignmentId)` against `cleaning_assignments`
(plus `markTaskCompleted` / `markTaskIncomplete`, not needed here).  No
cancel operation exists in the code.  They are embedded below over the full
schema row type. -/

/-- The effect of one `supabase.from('cleaning_assignments')
.update(fields).eq('id', i)` call: every row whose `id` matches is rewritten
by `f`; everything else is untouched. -/
def updateWhereId (tbl : List CleaningAssignmentRow) (i : Nat)
    (f : CleaningAssignmentRow -> CleaningAssignmentRow) :
    List CleaningAssignmentRow :=
  tbl.map (fun r => if r.id = i then f r else r)

/-- First row carrying a given id. -/
def lookupRow : List CleaningAssignmentRow -> Nat -> Option CleaningAssignmentRow
  | [], _ => none
  | r :: t, i => if r.id = i then some r else lookupRow t i

/-- The `response: 'accepted' | 'rejected'` union of
`respondToSwapRequest`. -/
inductive SwapDecision where
  | accepted
  | rejected
deriving DecidableEq, Repr

/-- The `swap_status` value the response writes. -/
def SwapDecision.toStatus : SwapDecision -> SwapStatus
  | .accepted => .accepted
  | .rejected => .rejected

/-- `requestTaskSwap(assignmentId, requestingMemberId, targetMemberId)`: one
update on the requesting row setting the request timestamp and requester,
the TARGET MEMBER's id in `swapped_with`, and `swap_status='pending'`.  The
code performs no validation (no self-swap, completed, or already-pending
check) and never touches any other row. -/
def requestTaskSwap (tbl : List CleaningAssignmentRow)
    (assignmentId requestingMemberId targetMemberId : Nat) (now : String) :
    List CleaningAssignmentRow :=
  updateWhereId tbl assignmentId (fun r =>
    { r with swapRequestedAt := some now, swapRequestedBy := some requestingMemberId,
             swappedWith := some targetMemberId, swapStatus := some .pending })

/-- `respondToSwapRequest(assignmentId, response)`: a single update writing
only `swap_status` on the responding row.  On `accepted` the code comments
that actually swapping "would require additional logic ... For now, we'll
just update the status": no member or period is exchanged, no reciprocal
reference is written, and the other assignment is never touched. -/
def respondToSwapRequest (tbl : List CleaningAssignmentRow) (assignmentId : Nat)
    (response : SwapDecision) : List CleaningAssignmentRow :=
  updateWhereId tbl assignmentId (fun r =>
    { r with swapStatus := some response.toStatus })

/-- The database effect of `executeSwap`: after the dialog guards (ids
non-empty, the target assignment found on the selected date, target not
completed — the source's completion is not checked), two sequential updates:
the source row receives the target's `member_id` and is re-written with its
own date, then the target row receives the source's `member_id` and keeps
its own date; both get `swap_status='accepted'`, the other row's ASSIGNMENT
id in `swapped_with`, and one shared timestamp.  Only `member_id` is
exchanged, and the two updates are separate store calls, not one atomic
step.  `srcDate`/`tgtDate` are the dialog state, which mirrors the two rows'
stored dates. -/
def executeSwap (tbl : List CleaningAssignmentRow)
    (srcId srcMemberId : Nat) (srcDate : String)
    (tgtId tgtMemberId : Nat) (tgtDate : String) (tgtCompleted : Bool)
    (swapTimestamp : String) : List CleaningAssignmentRow :=
  if tgtCompleted then tbl
  else
    updateWhereId
      (updateWhereId tbl srcId (fun r =>
        { r with memberId := tgtMemberId, assignmentDate := srcDate,
                 swappedWith := some tgtId, swapStatus := some .accepted,
                 swapRequestedAt := some swapTimestamp }))
      tgtId (fun r =>
        { r with memberId := srcMemberId, assignmentDate := tgtDate,
                 swappedWith := some srcId, swapStatus := some .accepted,
                 swapRequestedAt := some swapTimestamp })

/-- The observation C9 is about: which member a persisted Assignment holds
and on which period, keyed by the row id. -/
def memberPeriodOf (r : CleaningAssignmentRow) : Nat × Nat × String :=
  (r.id, r.memberId, r.assignmentDate)

/-! ### Lemmas about the selection pipeline -/

theorem availableFor_perm (s : EngineState) (ms : List Member) (w : Nat) :
    List.Perm (availableFor s ms w)
      (ms.filter (fun m => s.lastAssigned m.id < (w : Int) - 1)) :=
  List.perm_insertionSort _ _

theorem mem_availableFor {s : EngineState} {ms : List Member} {w : Nat} {m : Member}
    (h : m ∈ availableFor s ms w) : m ∈ ms ∧ s.lastAssigned m.id < (w : Int) - 1 := by
  have h' := (availableFor_perm s ms w).mem_iff.mp h
  simpa using List.mem_filter.mp h'

theorem availableFor_nodup_ids {s : EngineState} {ms : List Member} {w : Nat}
    (hids : (ms.map Member.id).Nodup) :
    ((availableFor s ms w).map Member.id).Nodup := by
  have hsub :
      ((ms.filter (fun m => s.lastAssigned m.id < (w : Int) - 1)).map Member.id).Sublist
        (ms.map Member.id) :=
    (List.filter_sublist ms).map Member.id
  exact ((availableFor_perm s ms w).map Member.id).nodup_iff.mpr (hids.sublist hsub)

/-- The two members chosen for a week have different ids when the roster's
ids are distinct. -/
theorem availableFor_head_ne {s : EngineState} {ms : List Member} {w : Nat}
    {a b : Member} {t : List Member} (hids : (ms.map Member.id).Nodup)
    (hav : availableFor s ms w = a :: b :: t) : a.id ≠ b.id := by
  have hnd : ((availableFor s ms w).map Member.id).Nodup := availableFor_nodup_ids hids
  rw [hav] at hnd
  simp only [List.map_cons, List.nodup_cons, List.mem_cons] at hnd
  exact fun h => hnd.1 (Or.inl h)

/-! ### Lemmas about the generation loop -/

/-- A successful loop run produces one slot per remaining period, carrying
the periods' dates in order. -/
theorem scheduleLoop_dates {ms : List Member} :
    ∀ {ds : List String} {w : Nat} {s : EngineState} {raw : List RawSlot}
      {s₂ : EngineState}, scheduleLoop ms ds w s = .ok (raw, s₂) →
      raw.map RawSlot.date = ds := by
  intro ds
  induction ds with
  | nil =>
    intro w s raw s₂ h
    simp only [scheduleLoop, Except.ok.injEq, Prod.mk.injEq] at h
    simp [← h.1]
  | cons d ds ih =>
    intro w s raw s₂ h
    rw [scheduleLoop] at h
    split at h
    · split at h
      · rename_i rest hrec
        simp only [Except.ok.injEq, Prod.mk.injEq] at h
        obtain ⟨rest', s₃⟩ := rest
        rw [← h.1, List.map_cons, ih hrec]
      · exact absurd h (by simp)
    · exact absurd h (by simp)

/-- A loop failure reports the index of a week inside the processed range. -/
theorem scheduleLoop_error_range {ms : List Member} :
    ∀ {ds : List String} {w : Nat} {s : EngineState} {e : Nat},
      scheduleLoop ms ds w s = .error e → w ≤ e ∧ e < w + ds.length := by
  intro ds
  induction ds with
  | nil =>
    intro w s e h
    exact absurd h (by simp [scheduleLoop])
  | cons d ds ih =>
    intro w s e h
    rw [scheduleLoop] at h
    split at h
    · split at h
      · exact absurd h (by simp)
      · rename_i e' hrec
        simp only [Except.error.injEq] at h
        have := ih hrec
        simp only [List.length_cons]
        omega
    · simp only [Except.error.injEq] at h
      simp only [List.length_cons]
      omega

/-- Every slot of a successful run pairs two members with distinct ids. -/
theorem scheduleLoop_distinct {ms : List Member} (hids : (ms.map Member.id).Nodup) :
    ∀ {ds : List String} {w : Nat} {s : EngineState} {raw : List RawSlot}
      {s₂ : EngineState}, scheduleLoop ms ds w s = .ok (raw, s₂) →
      ∀ r ∈ raw, r.first.id ≠ r.second.id := by
  intro ds
  induction ds with
  | nil =>
    intro w s raw s₂ h r hr
    simp only [scheduleLoop, Except.ok.injEq, Prod.mk.injEq] at h
    rw [← h.1] at hr
    exact absurd hr (by simp)
  | cons d ds ih =>
    intro w s raw s₂ h r hr
    rw [scheduleLoop] at h
    split at h
    · rename_i a b t hav
      split at h
      · rename_i rest hrec
        obtain ⟨rest', s₃⟩ := rest
        simp only [Except.ok.injEq, Prod.mk.injEq] at h
        rw [← h.1] at hr
        rcases List.mem_cons.mp hr with hr | hr
        · rw [hr]
          exact availableFor_head_ne hids hav
        · exact ih hrec r hr
      · exact absurd h (by simp)
    · exact absurd h (by simp)

/-- The first slot of a successful run is drawn from the members eligible at
the entry state. -/
theorem scheduleLoop_head_eligible {ms : List Member} {ds : List String} {w : Nat}
    {s : EngineState} {r : RawSlot} {rest : List RawSlot} {s₂ : EngineState}
    (h : scheduleLoop ms ds w s = .ok (r :: rest, s₂)) :
    s.lastAssigned r.first.id < (w : Int) - 1 ∧
      s.lastAssigned r.second.id < (w : Int) - 1 := by
  cases ds with
  | nil =>
    simp only [scheduleLoop, Except.ok.injEq, Prod.mk.injEq] at h
    exact absurd h.1 (by simp)
  | cons d ds =>
    rw [scheduleLoop] at h
    split at h
    · rename_i a b t hav
      split at h
      · rename_i rest'' hrec
        obtain ⟨rest', s₃⟩ := rest''
        simp only [Except.ok.injEq, Prod.mk.injEq, List.cons.injEq] at h
        obtain ⟨⟨hr, -⟩, -⟩ := h
        have ha : a ∈ availableFor s ms w := by rw [hav]; exact List.mem_cons_self a _
        have hb : b ∈ availableFor s ms w := by
          rw [hav]; exact List.mem_cons_of_mem _ (List.mem_cons_self b _)
        rw [← hr]
        exact ⟨(mem_availableFor ha).2, (mem_availableFor hb).2⟩
      · exact absurd h (by simp)
    · exact absurd h (by simp)

theorem assignMember_last_self (s : EngineState) (i : Nat) (w : Int) :
    (assignMember s i w).lastAssigned i = w := by
  simp [assignMember]

/-- After choosing a pair for week `w`, both chosen ids carry
`lastAssigned = w`. -/
theorem double_assign_last (s : EngineState) (a b : Nat) (w : Int) :
    (assignMember (assignMember s a w) b w).lastAssigned a = w ∧
      (assignMember (assignMember s a w) b w).lastAssigned b = w := by
  refine ⟨?_, assignMember_last_self _ _ _⟩
  by_cases h : a = b
  · rw [h]; exact assignMember_last_self _ _ _
  · show (if a = b then w else (assignMember s a w).lastAssigned a) = w
    rw [if_neg h]
    exact assignMember_last_self _ _ _

/-- Adjacent slots of a successful run share no member id: the pair chosen
for week `w` has `lastAssigned = w`, and week `w + 1` filters on
`lastAssigned < w`. -/
theorem scheduleLoop_adjacent {ms : List Member} :
    ∀ {ds : List String} {w : Nat} {s : EngineState} {raw : List RawSlot}
      {s₂ : EngineState}, scheduleLoop ms ds w s = .ok (raw, s₂) →
      ∀ (k : Nat) (r₁ r₂ : RawSlot), raw.get? k = some r₁ →
        raw.get? (k + 1) = some r₂ → ∀ i ∈ slotIds r₁, i ∉ slotIds r₂ := by
  intro ds
  induction ds with
  | nil =>
    intro w s raw s₂ h k r₁ r₂ h₁ h₂
    simp only [scheduleLoop, Except.ok.injEq, Prod.mk.injEq] at h
    rw [← h.1] at h₁
    exact absurd h₁ (by simp)
  | cons d ds ih =>
    intro w s raw s₂ h k r₁ r₂ h₁ h₂
    rw [scheduleLoop] at h
    split at h
    · rename_i a b t hav
      split at h
      · rename_i rest₁ s₃ hrec
        simp only [Except.ok.injEq, Prod.mk.injEq] at h
        rw [← h.1] at h₁ h₂
        cases k with
        | zero =>
          simp only [List.get?] at h₁ h₂
          cases h₁
          cases hr' : rest₁ with
          | nil => rw [hr'] at h₂; exact absurd h₂ (by simp)
          | cons r₀ rrest =>
            rw [hr'] at h₂
            simp only [List.get?, Option.some.injEq] at h₂
            rw [hr'] at hrec
            have helig := scheduleLoop_head_eligible hrec
            have hlast := double_assign_last s a.id b.id (w : Int)
            intro i hi hi₂
            have hi' : i = a.id ∨ i = b.id := by simpa [slotIds] using hi
            have hi₂' : i = r₀.first.id ∨ i = r₀.second.id := by
              rw [← h₂] at hi₂; simpa [slotIds] using hi₂
            have hlasti :
                (assignMember (assignMember s a.id (w : Int)) b.id
                    (w : Int)).lastAssigned i = (w : Int) := by
              rcases hi' with h' | h' <;> rw [h']
              · exact hlast.1
              · exact hlast.2
            have hlti :
                (assignMember (assignMember s a.id (w : Int)) b.id
                    (w : Int)).lastAssigned i < (w : Int) := by
              rcases hi₂' with h' | h' <;> rw [h']
              · have := helig.1; push_cast at this; omega
              · have := helig.2; push_cast at this; omega
            rw [hlasti] at hlti
            exact absurd hlti (lt_irrefl _)
        | succ k =>
          simp only [List.get?] at h₁ h₂
          exact ih hrec k r₁ r₂ h₁ h₂
      · exact absurd h (by simp)
    · exact absurd h (by simp)

/-- Running the loop over an extended period list first replays the run over
the original list exactly, then continues from its final state. -/
theorem scheduleLoop_append {ms : List Member} :
    ∀ {ds es : List String} {w : Nat} {s : EngineState},
      scheduleLoop ms (ds ++ es) w s =
        match scheduleLoop ms ds w s with
        | .error e => .error e
        | .ok (raw, s₁) =>
          match scheduleLoop ms es (w + ds.length) s₁ with
          | .error e => .error e
          | .ok (raw₂, s₂) => .ok (raw ++ raw₂, s₂) := by
  intro ds
  induction ds with
  | nil =>
    intro es w s
    simp only [List.nil_append, scheduleLoop, List.length_nil, Nat.add_zero]
    cases scheduleLoop ms es w s with
    | error e => rfl
    | ok p => obtain ⟨raw₂, s₂⟩ := p; simp
  | cons d ds ih =>
    intro es w s
    simp only [List.cons_append, List.length_cons]
    rw [scheduleLoop]
    conv_rhs => rw [scheduleLoop]
    cases hav : availableFor s ms w with
    | nil => simp
    | cons a t =>
      cases t with
      | nil => simp
      | cons b t' =>
        simp only
        rw [ih]
        have hw : w + (ds.length + 1) = w + 1 + ds.length := by omega
        rw [hw]
        cases scheduleLoop ms ds (w + 1)
            (assignMember (assignMember s a.id (w : Int)) b.id (w : Int)) with
        | error e => rfl
        | ok p =>
          obtain ⟨raw, s₁⟩ := p
          simp only
          cases scheduleLoop ms es (w + 1 + ds.length) s₁ with
          | error e => rfl
          | ok q => obtain ⟨raw₂, s₂⟩ := q; simp

/-! ### Lemmas about the preview loop -/

/-- The first week produced by the preview loop is drawn from the members
eligible at the entry state. -/
theorem previewLoop_head_eligible {ms : List Member} {n w : Nat} {s : EngineState}
    {ids : List Nat} {rest : List (List Nat)}
    (h : previewLoop ms n w s = ids :: rest) :
    ∀ i ∈ ids, s.lastAssigned i < (w : Int) - 1 := by
  cases n with
  | zero => exact absurd h (by simp [previewLoop])
  | succ n =>
    rw [previewLoop] at h
    split at h
    · rename_i a b t hav
      simp only [List.cons.injEq] at h
      intro i hi
      rw [← h.1] at hi
      have ha : a ∈ availableFor s ms w := by rw [hav]; exact List.mem_cons_self a _
      have hb : b ∈ availableFor s ms w := by
        rw [hav]; exact List.mem_cons_of_mem _ (List.mem_cons_self b _)
      rcases (by simpa using hi : i = a.id ∨ i = b.id) with hi' | hi' <;> rw [hi']
      · exact (mem_availableFor ha).2
      · exact (mem_availableFor hb).2
    · exact absurd h (by simp)

/-- Adjacent weeks of the preview share no member id. -/
theorem previewLoop_adjacent {ms : List Member} :
    ∀ {n w : Nat} {s : EngineState} {k : Nat} {ids₁ ids₂ : List Nat},
      (previewLoop ms n w s).get? k = some ids₁ →
      (previewLoop ms n w s).get? (k + 1) = some ids₂ →
      ∀ i ∈ ids₁, i ∉ ids₂ := by
  intro n
  induction n with
  | zero =>
    intro w s k ids₁ ids₂ h₁ h₂
    exact absurd h₁ (by simp [previewLoop])
  | succ n ih =>
    intro w s k ids₁ ids₂ h₁ h₂
    rw [previewLoop] at h₁ h₂
    split at h₁
    · rename_i a b t hav
      rw [hav] at h₂
      simp only at h₂
      cases k with
      | zero =>
        simp only [List.get?, Option.some.injEq] at h₁ h₂
        cases hr : previewLoop ms n (w + 1)
            (assignMember (assignMember s a.id (w : Int)) b.id (w : Int)) with
        | nil => rw [hr] at h₂; exact absurd h₂ (by simp)
        | cons ids₀ rrest =>
          rw [hr] at h₂
          simp only [List.get?, Option.some.injEq] at h₂
          have helig := previewLoop_head_eligible hr
          have hlast := double_assign_last s a.id b.id (w : Int)
          intro i hi hi₂
          have hi' : i = a.id ∨ i = b.id := by rw [← h₁] at hi; simpa using hi
          have hlt := helig i (by rw [h₂]; exact hi₂)
          push_cast at hlt
          rcases hi' with hi' | hi' <;> rw [hi'] at hlt <;>
            simp only [hlast.1, hlast.2] at hlt <;> omega
      | succ k =>
        simp only [List.get?] at h₁ h₂
        exact ih h₁ h₂
    · exact absurd h₁ (by simp)

/-- A successful `generateScheduleRaw` comes from a successful loop run over
all periods from the initial state. -/
theorem generateScheduleRaw_ok_loop {ms : List Member} {ds : List String}
    {raw : List RawSlot} (h : generateScheduleRaw ms ds = .ok raw) :
    ∃ s₂, scheduleLoop ms ds 0 initState = .ok (raw, s₂) := by
  rw [generateScheduleRaw] at h
  split at h
  · exact absurd h (by simp)
  split at h
  · exact absurd h (by simp)
  split at h
  · exact absurd h (by simp)
  split at h
  · rename_i raw' s₂ hloop
    simp only [Except.ok.injEq] at h
    exact ⟨s₂, by rw [hloop, h]⟩
  · exact absurd h (by simp)

/-- The three periods of the spec's concrete scenario 3. -/
def demoDates : List String := ["2025-01-05", "2025-01-12", "2025-01-19"]

/-! ### The claims -/

/-- C1: for every member list and period sequence that pass the feasibility
checks, `generateSchedule` either returns a plan with exactly one slot per
period, in period order, each slot pairing two distinct members, or reports
a `schedulingConflict` naming an offending week inside the range; in the
conflict case the `assignments` state is left unchanged. -/
theorem claim_C1 (ms : List Member) (ds : List String) (prev : List Assignment)
    (hids : (ms.map Member.id).Nodup) (h2 : 2 ≤ ms.length) (h0 : 0 < ds.length)
    (h4 : 1 < ds.length → 4 ≤ ms.length) :
    (∃ raw, generateScheduleRaw ms ds = .ok raw ∧
        generateSchedule ms ds = .ok (raw.map rawToAssignment) ∧
        raw.map RawSlot.date = ds ∧
        (∀ r ∈ raw, r.first.id ≠ r.second.id) ∧
        (∀ a ∈ raw.map rawToAssignment, a.members.length = 2)) ∨
    (∃ w, w < ds.length ∧
        generateSchedule ms ds = .error (.schedulingConflict w) ∧
        commitSchedule prev ms ds = prev) := by
  have hlt : ¬ (ms.length < 2) := by omega
  have hz : ¬ (ds.length = 0) := by omega
  have hcc : ¬ (1 < ds.length ∧ ms.length < 4) := fun hx => by
    have := h4 hx.1; omega
  have hgen : generateScheduleRaw ms ds =
      match scheduleLoop ms ds 0 initState with
      | .ok (raw, _) => .ok raw
      | .error w => .error (.schedulingConflict w) := by
    rw [generateScheduleRaw, if_neg hlt, if_neg hz, if_neg hcc]
  cases hloop : scheduleLoop ms ds 0 initState with
  | ok p =>
    obtain ⟨raw, s₂⟩ := p
    left
    have hraw : generateScheduleRaw ms ds = .ok raw := by rw [hgen, hloop]
    refine ⟨raw, hraw, ?_, scheduleLoop_dates hloop,
      fun r hr => scheduleLoop_distinct hids hloop r hr, ?_⟩
    · rw [generateSchedule, hraw]; rfl
    · intro a ha
      obtain ⟨r, -, rfl⟩ := List.mem_map.mp ha
      rfl
  | error w =>
    right
    have hrange := scheduleLoop_error_range hloop
    have hraw : generateScheduleRaw ms ds = .error (.schedulingConflict w) := by
      rw [hgen, hloop]
    refine ⟨w, by omega, ?_, ?_⟩
    · rw [generateSchedule, hraw]; rfl
    · rw [commitSchedule, generateSchedule, hraw]
      rfl

theorem claim_C1_witness :
    (∃ raw, generateScheduleRaw demoMembers demoDates = .ok raw ∧
        generateSchedule demoMembers demoDates = .ok (raw.map rawToAssignment) ∧
        raw.map RawSlot.date = demoDates ∧
        (∀ r ∈ raw, r.first.id ≠ r.second.id) ∧
        (∀ a ∈ raw.map rawToAssignment, a.members.length = 2)) ∨
    (∃ w, w < demoDates.length ∧
        generateSchedule demoMembers demoDates = .error (.schedulingConflict w) ∧
        commitSchedule [] demoMembers demoDates = []) :=
  claim_C1 demoMembers demoDates [] (by decide) (by decide) (by decide) (by decide)

/-- C2: in every successful plan (and in every preview), the slots of two
adjacent weeks share no member: a member chosen for week `k` is never chosen
for week `k + 1`. -/
theorem claim_C2 (ms : List Member) :
    (∀ (ds : List String) (raw : List RawSlot),
      generateScheduleRaw ms ds = .ok raw →
      ∀ (k : Nat) (r₁ r₂ : RawSlot), raw.get? k = some r₁ →
        raw.get? (k + 1) = some r₂ → ∀ i ∈ slotIds r₁, i ∉ slotIds r₂) ∧
    (∀ (weeks : Nat) (k : Nat) (ids₁ ids₂ : List Nat),
      (generateBalancedPreview ms weeks).get? k = some ids₁ →
      (generateBalancedPreview ms weeks).get? (k + 1) = some ids₂ →
      ∀ i ∈ ids₁, i ∉ ids₂) := by
  constructor
  · intro ds raw h k r₁ r₂ h₁ h₂
    obtain ⟨s₂, hloop⟩ := generateScheduleRaw_ok_loop h
    exact scheduleLoop_adjacent hloop k r₁ r₂ h₁ h₂
  · intro weeks k ids₁ ids₂ h₁ h₂
    rw [generateBalancedPreview] at h₁ h₂
    split at h₁
    · exact absurd h₁ (by simp)
    · rw [if_neg (by assumption)] at h₂
      simp only at h₁ h₂
      exact previewLoop_adjacent h₁ h₂

theorem claim_C2_witness : (0 : Nat) ∉ slotIds ⟨"2025-01-12", ⟨2, "C"⟩, ⟨3, "D"⟩⟩ :=
  (claim_C2 demoMembers).1 demoDates
    [⟨"2025-01-05", ⟨0, "A"⟩, ⟨1, "B"⟩⟩, ⟨"2025-01-12", ⟨2, "C"⟩, ⟨3, "D"⟩⟩,
      ⟨"2025-01-19", ⟨0, "A"⟩, ⟨1, "B"⟩⟩]
    (by decide) 0 _ _ rfl rfl 0 (by decide)

/-- C4: the feasibility rules run before any slot generation, in source
order with the first failure winning: fewer than two members, then zero
periods, then multiple periods with fewer than four members; generation
begins only when all three pass, and every failing check leaves the
`assignments` state untouched. -/
theorem claim_C4 (ms : List Member) (ds : List String) (prev : List Assignment) :
    (ms.length < 2 → generateSchedule ms ds = .error .insufficientMembers) ∧
    (2 ≤ ms.length → ds.length = 0 → generateSchedule ms ds = .error .noPeriods) ∧
    (2 ≤ ms.length → 1 < ds.length → ms.length < 4 →
      generateSchedule ms ds = .error .cannotAvoidConsecutive) ∧
    (2 ≤ ms.length → 0 < ds.length → (1 < ds.length → 4 ≤ ms.length) →
      (∃ plan, generateSchedule ms ds = .ok plan) ∨
        (∃ w, generateSchedule ms ds = .error (.schedulingConflict w))) ∧
    (∀ e, generateSchedule ms ds = .error e → commitSchedule prev ms ds = prev) := by
  refine ⟨?_, ?_, ?_, ?_, ?_⟩
  · intro h
    rw [generateSchedule, generateScheduleRaw, if_pos h]
    rfl
  · intro h2 h0
    rw [generateSchedule, generateScheduleRaw, if_neg (by omega), if_pos h0]
    rfl
  · intro h2 hgt hlt
    rw [generateSchedule, generateScheduleRaw, if_neg (by omega), if_neg (by omega),
      if_pos ⟨hgt, hlt⟩]
    rfl
  · intro h2 h0 h4
    have hcc : ¬ (1 < ds.length ∧ ms.length < 4) := fun hx => by
      have := h4 hx.1; omega
    rw [generateSchedule, generateScheduleRaw, if_neg (by omega), if_neg (by omega),
      if_neg hcc]
    cases hloop : scheduleLoop ms ds 0 initState with
    | ok p => obtain ⟨raw, s₂⟩ := p; exact Or.inl ⟨raw.map rawToAssignment, rfl⟩
    | error w => exact Or.inr ⟨w, rfl⟩
  · intro e h
    rw [commitSchedule, h]

theorem claim_C4_witness :
    generateSchedule [⟨0, "A"⟩] demoDates = .error .insufficientMembers ∧
      generateSchedule demoMembers [] = .error .noPeriods ∧
      generateSchedule [⟨0, "A"⟩, ⟨1, "B"⟩, ⟨2, "C"⟩] demoDates =
        .error .cannotAvoidConsecutive :=
  ⟨(claim_C4 [⟨0, "A"⟩] demoDates []).1 (by decide),
    (claim_C4 demoMembers [] []).2.1 (by decide) (by decide),
    (claim_C4 [⟨0, "A"⟩, ⟨1, "B"⟩, ⟨2, "C"⟩] demoDates []).2.2.1 (by decide) (by decide)
      (by decide)⟩

/-- C5: on the roster `[A, B, C, D]` in that order and three periods, the
engine returns exactly the plan `{A,B}, {C,D}, {A,B}`, forced by the sort on
ascending count then ascending `lastAssigned` with stable ties in roster
order. -/
theorem claim_C5 :
    generateSchedule demoMembers demoDates =
      .ok [⟨"2025-01-05", ["A", "B"]⟩, ⟨"2025-01-12", ["C", "D"]⟩,
        ⟨"2025-01-19", ["A", "B"]⟩] := by
  decide

/-- C6: the engine is deterministic — two runs on identical ordered inputs
return identical plans; no randomness enters slot selection (the embedding
is a pure function of the roster and period list). -/
theorem claim_C6 (ms₁ ms₂ : List Member) (ds₁ ds₂ : List String)
    (hm : ms₁ = ms₂) (hd : ds₁ = ds₂) :
    generateSchedule ms₁ ds₁ = generateSchedule ms₂ ds₂ := by
  rw [hm, hd]

theorem claim_C6_witness :
    generateSchedule demoMembers demoDates = generateSchedule demoMembers demoDates :=
  claim_C6 demoMembers demoMembers demoDates demoDates rfl rfl

/-! ### Fairness-gap lemmas for C3 -/

theorem foldr_max_map_le {f g : Member → Nat} :
    ∀ {ms : List Member} {i₁ i₂ : Nat}, (∀ m ∈ ms, f m ≤ g m) → i₁ ≤ i₂ →
      (ms.map f).foldr max i₁ ≤ (ms.map g).foldr max i₂ := by
  intro ms
  induction ms with
  | nil => intro i₁ i₂ _ hi; exact hi
  | cons m ms ih =>
    intro i₁ i₂ hf hi
    simp only [List.map_cons, List.foldr_cons]
    exact max_le_max (hf m (List.mem_cons_self m ms))
      (ih (fun x hx => hf x (List.mem_cons_of_mem m hx)) hi)

theorem foldr_min_map_le {f g : Member → Nat} :
    ∀ {ms : List Member} {i₁ i₂ : Nat}, (∀ m ∈ ms, f m ≤ g m) → i₁ ≤ i₂ →
      (ms.map f).foldr min i₁ ≤ (ms.map g).foldr min i₂ := by
  intro ms
  induction ms with
  | nil => intro i₁ i₂ _ hi; exact hi
  | cons m ms ih =>
    intro i₁ i₂ hf hi
    simp only [List.map_cons, List.foldr_cons]
    exact min_le_min (hf m (List.mem_cons_self m ms))
      (ih (fun x hx => hf x (List.mem_cons_of_mem m hx)) hi)

theorem maxBy_mono {f g : Member → Nat} {ms : List Member}
    (h : ∀ m ∈ ms, f m ≤ g m) : maxBy f ms ≤ maxBy g ms := by
  cases ms with
  | nil => exact le_refl _
  | cons m ms =>
    exact foldr_max_map_le (fun x hx => h x (List.mem_cons_of_mem m hx))
      (h m (List.mem_cons_self m ms))

theorem minBy_mono {f g : Member → Nat} {ms : List Member}
    (h : ∀ m ∈ ms, f m ≤ g m) : minBy f ms ≤ minBy g ms := by
  cases ms with
  | nil => exact le_refl _
  | cons m ms =>
    exact foldr_min_map_le (fun x hx => h x (List.mem_cons_of_mem m hx))
      (h m (List.mem_cons_self m ms))

theorem foldr_max_map_succ (f : Member → Nat) :
    ∀ (ms : List Member) (i : Nat),
      (ms.map (fun m => f m + 1)).foldr max (i + 1) = (ms.map f).foldr max i + 1 := by
  intro ms
  induction ms with
  | nil => intro i; rfl
  | cons m ms ih =>
    intro i
    simp only [List.map_cons, List.foldr_cons, ih, Nat.succ_max_succ]

theorem maxBy_succ_le (f : Member → Nat) (ms : List Member) :
    maxBy (fun m => f m + 1) ms ≤ maxBy f ms + 1 := by
  cases ms with
  | nil => exact Nat.zero_le _
  | cons m ms => rw [maxBy, maxBy, foldr_max_map_succ]

/-- Appending one slot raises each member's assignment count by its presence
in the new slot. -/
theorem assignCountIn_append_single (raw : List RawSlot) (r : RawSlot) (i : Nat) :
    assignCountIn (raw ++ [r]) i =
      assignCountIn raw i + (if i ∈ slotIds r then 1 else 0) := by
  rw [assignCountIn, assignCountIn, List.filter_append, List.length_append]
  congr 1
  by_cases h : i ∈ slotIds r
  · simp [h]
  · simp [h]

/-- A run over one more period extends the successful plan by exactly one
slot. -/
theorem generateScheduleRaw_snoc {ms : List Member} {ds : List String} {d : String}
    {raw raw' : List RawSlot}
    (h1 : generateScheduleRaw ms ds = .ok raw)
    (h2 : generateScheduleRaw ms (ds ++ [d]) = .ok raw') :
    ∃ r : RawSlot, raw' = raw ++ [r] := by
  obtain ⟨s₁, hloop⟩ := generateScheduleRaw_ok_loop h1
  obtain ⟨s₂', hloop'⟩ := generateScheduleRaw_ok_loop h2
  rw [scheduleLoop_append, hloop] at hloop'
  simp only at hloop'
  split at hloop'
  · exact absurd hloop' (by simp)
  · rename_i raw₂ s₂'' hsingle
    simp only [Except.ok.injEq, Prod.mk.injEq] at hloop'
    rw [scheduleLoop] at hsingle
    split at hsingle
    · rename_i a b t hav
      simp only [scheduleLoop, Except.ok.injEq, Prod.mk.injEq] at hsingle
      exact ⟨⟨d, a, b⟩, by rw [← hloop'.1, ← hsingle.1]⟩
    · exact absurd hsingle (by simp)

/-- C3 as amended: adding one period to a fixed roster can raise the
fairness gap `max(count) - min(count)` of the successful plan by at most
one (it is not non-increasing; see the counterexample). -/
theorem claim_C3 (ms : List Member) (ds : List String) (d : String)
    (raw raw' : List RawSlot)
    (h1 : generateScheduleRaw ms ds = .ok raw)
    (h2 : generateScheduleRaw ms (ds ++ [d]) = .ok raw') :
    countGap ms raw' ≤ countGap ms raw + 1 := by
  obtain ⟨r, hr⟩ := generateScheduleRaw_snoc h1 h2
  have hpoint : ∀ m ∈ ms, assignCountIn raw' m.id =
      assignCountIn raw m.id + (if m.id ∈ slotIds r then 1 else 0) := fun m _ => by
    rw [hr, assignCountIn_append_single]
  have hle : ∀ m ∈ ms, assignCountIn raw m.id ≤ assignCountIn raw' m.id := fun m hm => by
    rw [hpoint m hm]; omega
  have hle1 : ∀ m ∈ ms, assignCountIn raw' m.id ≤ assignCountIn raw m.id + 1 :=
    fun m hm => by rw [hpoint m hm]; split <;> omega
  have hmax : maxBy (fun m => assignCountIn raw' m.id) ms ≤
      maxBy (fun m => assignCountIn raw m.id) ms + 1 :=
    le_trans (maxBy_mono hle1) (maxBy_succ_le _ ms)
  have hmin : minBy (fun m => assignCountIn raw m.id) ms ≤
      minBy (fun m => assignCountIn raw' m.id) ms :=
    minBy_mono hle
  rw [countGap, countGap]
  omega

/-- C3 as stated fails: for the fixed roster `[A, B, C, D]`, whose minimum
required length is two periods, the gap of the successful plan is `0` at two
periods and rises to `1` at three periods, so the gap is not non-increasing
beyond the minimum length. -/
theorem claim_C3_counterexample :
    calculateWeeksNeeded demoMembers = 2 ∧
      (generateScheduleRaw demoMembers ["2025-01-05", "2025-01-12"]).map
        (countGap demoMembers) = .ok 0 ∧
      (generateScheduleRaw demoMembers demoDates).map (countGap demoMembers) = .ok 1 := by
  decide

theorem claim_C3_witness :
    countGap demoMembers
        [⟨"2025-01-05", ⟨0, "A"⟩, ⟨1, "B"⟩⟩, ⟨"2025-01-12", ⟨2, "C"⟩, ⟨3, "D"⟩⟩,
          ⟨"2025-01-19", ⟨0, "A"⟩, ⟨1, "B"⟩⟩] ≤
      countGap demoMembers
        [⟨"2025-01-05", ⟨0, "A"⟩, ⟨1, "B"⟩⟩, ⟨"2025-01-12", ⟨2, "C"⟩, ⟨3, "D"⟩⟩] + 1 :=
  claim_C3 demoMembers ["2025-01-05", "2025-01-12"] "2025-01-19"
    [⟨"2025-01-05", ⟨0, "A"⟩, ⟨1, "B"⟩⟩, ⟨"2025-01-12", ⟨2, "C"⟩, ⟨3, "D"⟩⟩]
    [⟨"2025-01-05", ⟨0, "A"⟩, ⟨1, "B"⟩⟩, ⟨"2025-01-12", ⟨2, "C"⟩, ⟨3, "D"⟩⟩,
      ⟨"2025-01-19", ⟨0, "A"⟩, ⟨1, "B"⟩⟩]
    (by decide) (by decide)

/-! ### C7: persistence of saved rosters -/

/-- C7 as amended: `saveRoster` never replaces — past its guard it always
inserts a fresh roster row (one more roster carrying the saved name, even if
the name already exists) and keeps every previously stored member and
assignment row. -/
theorem claim_C7 (db : Database) (rosterName sd ed : String) (members : List Member)
    (assignments : List Assignment) (rid : Nat) (mids : List Nat)
    (hname : ¬ trimName rosterName = "") (hassign : ¬ assignments = []) :
    (saveRoster db rosterName sd ed members assignments rid mids).rosters.countP
        (fun r => r.name = trimName rosterName) =
      db.rosters.countP (fun r => r.name = trimName rosterName) + 1 ∧
    (∀ r ∈ db.rosterMembers,
      r ∈ (saveRoster db rosterName sd ed members assignments rid mids).rosterMembers) ∧
    (∀ r ∈ db.cleaningAssignments,
      r ∈ (saveRoster db rosterName sd ed members assignments rid
        mids).cleaningAssignments) := by
  rw [saveRoster, if_neg (by push_neg; exact ⟨hname, hassign⟩)]
  refine ⟨?_, ?_, ?_⟩
  · simp [List.countP_append, List.countP_cons]
  · intro r hr
    exact List.mem_append_left _ hr
  · intro r hr
    exact List.mem_append_left _ hr

theorem claim_C7_witness :
    (saveRoster ⟨[], [], []⟩ "R" "2025-01-01" "2025-01-31" [⟨0, "A"⟩, ⟨1, "B"⟩]
        [⟨"2025-01-05", ["A", "B"]⟩] 100 [10, 11]).rosters.countP
        (fun r => r.name = trimName "R") =
      (⟨[], [], []⟩ : Database).rosters.countP (fun r => r.name = trimName "R") + 1 :=
  (claim_C7 ⟨[], [], []⟩ "R" "2025-01-01" "2025-01-31" [⟨0, "A"⟩, ⟨1, "B"⟩]
    [⟨"2025-01-05", ["A", "B"]⟩] 100 [10, 11] (by decide) (by decide)).1

/-- C7 as stated fails: two saves under the same name "R" leave two rosters
named "R" in the store, and the first save's member and assignment rows are
still present afterwards — nothing was deleted, and the second save created
an independent roster rather than updating the first. -/
theorem claim_C7_counterexample :
    ((saveRoster
        (saveRoster ⟨[], [], []⟩ "R" "2025-01-01" "2025-01-31" [⟨0, "A"⟩, ⟨1, "B"⟩]
          [⟨"2025-01-05", ["A", "B"]⟩] 100 [10, 11])
        "R" "2025-02-01" "2025-02-28" [⟨0, "A"⟩, ⟨1, "B"⟩]
        [⟨"2025-02-02", ["A", "B"]⟩] 200 [20, 21]).rosters.filter
        (fun r => r.name = "R")).length = 2 ∧
    (⟨10, 100, "A"⟩ : MemberRow) ∈ (saveRoster
        (saveRoster ⟨[], [], []⟩ "R" "2025-01-01" "2025-01-31" [⟨0, "A"⟩, ⟨1, "B"⟩]
          [⟨"2025-01-05", ["A", "B"]⟩] 100 [10, 11])
        "R" "2025-02-01" "2025-02-28" [⟨0, "A"⟩, ⟨1, "B"⟩]
        [⟨"2025-02-02", ["A", "B"]⟩] 200 [20, 21]).rosterMembers ∧
    (⟨100, 10, "2025-01-05"⟩ : AssignmentRow) ∈ (saveRoster
        (saveRoster ⟨[], [], []⟩ "R" "2025-01-01" "2025-01-31" [⟨0, "A"⟩, ⟨1, "B"⟩]
          [⟨"2025-01-05", ["A", "B"]⟩] 100 [10, 11])
        "R" "2025-02-01" "2025-02-28" [⟨0, "A"⟩, ⟨1, "B"⟩]
        [⟨"2025-02-02", ["A", "B"]⟩] 200 [20, 21]).cleaningAssignments := by
  decide

/-! ### C8: the swap-peer column of the persisted schema -/

/-- C8 as amended: the persisted swap-peer column `swapped_with` is a
foreign key into `roster_members` — it identifies a member, not another
Assignment — and what the schema enforces about it is referential integrity:
a set `swapped_with` must name an existing member.  No schema rule ties a
non-null `swap_status` to a set peer, and no assignment-to-assignment link
exists to be reciprocal. -/
theorem claim_C8 :
    fkTargetOf "swapped_with" = some TableRef.rosterMembers ∧
      ∀ (rosterIds memberIds : List Nat) (r : CleaningAssignmentRow),
        rowSchemaOk rosterIds memberIds r →
        ∀ i, r.swappedWith = some i → i ∈ memberIds := by
  exact ⟨rfl, fun _ _ _ h i hi => h.2.2.2.1 i hi⟩

theorem claim_C8_witness :
    fkTargetOf "swapped_with" = some TableRef.rosterMembers ∧
      rowSchemaOk [100] [10, 11]
        ⟨1, 100, 10, "2025-01-05", false, none, none, some 11, none, none,
          some .pending⟩ ∧
      (10 : Nat) ∈ ([10, 11] : List Nat) :=
  ⟨claim_C8.1, by decide, by decide⟩

/-- C8 as stated fails on the schema: `swapped_with` is declared
`REFERENCES public.roster_members(id)`, not a reference to another
`cleaning_assignments` row, and a row satisfying every schema constraint may
carry `swap_status = 'pending'` with `swapped_with` NULL, so a non-none
status does not imply a set peer, let alone a reciprocal assignment link. -/
theorem claim_C8_counterexample :
    fkTargetOf "swapped_with" = some TableRef.rosterMembers ∧
      ¬ fkTargetOf "swapped_with" = some TableRef.cleaningAssignments ∧
      rowSchemaOk [100] [10, 11]
        ⟨1, 100, 10, "2025-01-05", false, none, none, none, none, none,
          some .pending⟩ ∧
      ¬ (⟨1, 100, 10, "2025-01-05", false, none, none, none, none, none,
          some .pending⟩ : CleaningAssignmentRow).swapStatus = none ∧
      (⟨1, 100, 10, "2025-01-05", false, none, none, none, none, none,
          some .pending⟩ : CleaningAssignmentRow).swappedWith = none := by
  decide

/-! ### C9: the swap transitions -/

theorem lookupRow_update_self :
    ∀ (tbl : List CleaningAssignmentRow) (i : Nat)
      (f : CleaningAssignmentRow → CleaningAssignmentRow),
      (∀ r, (f r).id = r.id) →
      lookupRow (updateWhereId tbl i f) i = (lookupRow tbl i).map f := by
  intro tbl
  induction tbl with
  | nil => intro i f _; rfl
  | cons r t ih =>
    intro i f hf
    by_cases h : r.id = i
    · simp [updateWhereId, lookupRow, h, hf r]
    · simp only [updateWhereId, List.map_cons, if_neg h, lookupRow, if_neg h]
      exact ih i f hf

theorem lookupRow_update_ne :
    ∀ (tbl : List CleaningAssignmentRow) (i : Nat)
      (f : CleaningAssignmentRow → CleaningAssignmentRow),
      (∀ r, (f r).id = r.id) → ∀ j, j ≠ i →
      lookupRow (updateWhereId tbl i f) j = lookupRow tbl j := by
  intro tbl
  induction tbl with
  | nil => intro i f _ j _; rfl
  | cons r t ih =>
    intro i f hf j hj
    by_cases h : r.id = i
    · have hfj : ¬ (f r).id = j := by
        rw [hf r, h]
        exact fun hc => hj hc.symm
      have hrj : ¬ r.id = j := by
        rw [h]
        exact fun hc => hj hc.symm
      simp only [updateWhereId, List.map_cons, if_pos h, lookupRow, if_neg hfj,
        if_neg hrj]
      exact ih i f hf j hj
    · simp only [updateWhereId, List.map_cons, if_neg h, lookupRow]
      by_cases hrj : r.id = j
      · rw [if_pos hrj, if_pos hrj]
      · rw [if_neg hrj, if_neg hrj]
        exact ih i f hf j hj

/-- An update that changes neither `id`, `member_id` nor `assignment_date`
leaves the member/period view of the whole table unchanged. -/
theorem map_memberPeriodOf_update :
    ∀ (tbl : List CleaningAssignmentRow) (i : Nat)
      (f : CleaningAssignmentRow → CleaningAssignmentRow),
      (∀ r, memberPeriodOf (f r) = memberPeriodOf r) →
      (updateWhereId tbl i f).map memberPeriodOf = tbl.map memberPeriodOf := by
  intro tbl
  induction tbl with
  | nil => intro i f _; rfl
  | cons r t ih =>
    intro i f hf
    simp only [updateWhereId, List.map_cons]
    refine congrArg₂ List.cons ?_ (ih i f hf)
    by_cases h : r.id = i
    · rw [if_pos h, hf r]
    · rw [if_neg h]

/-- A two-row table holding a pending swap as `requestTaskSwap` leaves it:
row 1 (member 10) carries the pending request naming member 11 in
`swapped_with`; row 2 (member 11) is untouched. -/
def demoSwapTable : List CleaningAssignmentRow :=
  [⟨1, 100, 10, "2025-01-05", false, none, none, some 11, some "t0", some 10,
     some .pending⟩,
   ⟨2, 100, 11, "2025-01-12", false, none, none, none, none, none, none⟩]

/-- C9 as stated fails on the code: `respondToSwapRequest('accepted')` on
the pending row only rewrites `swap_status` — row 1 keeps member 10 on its
original date (an exchange would have given it member 11), and row 2 is not
touched at all: no member or period moves, no reciprocal reference and no
`accepted` stamp appear on the peer. -/
theorem claim_C9_counterexample :
    respondToSwapRequest demoSwapTable 1 .accepted =
      [⟨1, 100, 10, "2025-01-05", false, none, none, some 11, some "t0", some 10,
         some .accepted⟩,
       ⟨2, 100, 11, "2025-01-12", false, none, none, none, none, none, none⟩] ∧
      ¬ (10 : Nat) = 11 := by
  decide

/-- C9 as amended: `respondToSwapRequest` (either response) and
`requestTaskSwap` never change any Assignment's member or period — the
response only writes `swap_status` on the one addressed row and never
touches the peer.  The actual exchange lives in the separate `executeSwap`,
which — target found and not completed — swaps only the two rows'
`member_id` (each keeps its own `assignment_date`), stamps both
`swap_status='accepted'` with the other row's assignment id in
`swapped_with` and one shared timestamp, through two sequential updates
that leave every other row unchanged. -/
theorem claim_C9 (tbl : List CleaningAssignmentRow)
    (assignmentId reqMemberId : Nat) (response : SwapDecision) (now : String)
    (srcId srcMemberId : Nat) (srcDate : String)
    (tgtId tgtMemberId : Nat) (tgtDate ts : String)
    (src tgt : CleaningAssignmentRow)
    (hsrc : lookupRow tbl srcId = some src)
    (htgt : lookupRow tbl tgtId = some tgt)
    (hne : tgtId ≠ srcId)
    (hsm : src.memberId = srcMemberId) (hsd : src.assignmentDate = srcDate)
    (htm : tgt.memberId = tgtMemberId) (htd : tgt.assignmentDate = tgtDate)
    (htc : tgt.isCompleted = false) :
    ((respondToSwapRequest tbl assignmentId response).map memberPeriodOf =
      tbl.map memberPeriodOf) ∧
    (lookupRow (respondToSwapRequest tbl assignmentId response) assignmentId =
      (lookupRow tbl assignmentId).map
        (fun r => { r with swapStatus := some response.toStatus })) ∧
    (∀ j, j ≠ assignmentId →
      lookupRow (respondToSwapRequest tbl assignmentId response) j =
        lookupRow tbl j) ∧
    ((requestTaskSwap tbl assignmentId reqMemberId tgtMemberId now).map
        memberPeriodOf = tbl.map memberPeriodOf) ∧
    (lookupRow (executeSwap tbl srcId srcMemberId srcDate tgtId tgtMemberId tgtDate
        tgt.isCompleted ts) srcId =
      some { src with memberId := tgtMemberId, swappedWith := some tgtId,
                      swapStatus := some .accepted, swapRequestedAt := some ts }) ∧
    (lookupRow (executeSwap tbl srcId srcMemberId srcDate tgtId tgtMemberId tgtDate
        tgt.isCompleted ts) tgtId =
      some { tgt with memberId := srcMemberId, swappedWith := some srcId,
                      swapStatus := some .accepted, swapRequestedAt := some ts }) ∧
    (∀ j, j ≠ srcId → j ≠ tgtId →
      lookupRow (executeSwap tbl srcId srcMemberId srcDate tgtId tgtMemberId tgtDate
        tgt.isCompleted ts) j = lookupRow tbl j) := by
  subst hsm
  subst hsd
  subst htm
  subst htd
  have hexec : executeSwap tbl srcId src.memberId src.assignmentDate tgtId
      tgt.memberId tgt.assignmentDate tgt.isCompleted ts =
      updateWhereId
        (updateWhereId tbl srcId (fun r =>
          { r with memberId := tgt.memberId, assignmentDate := src.assignmentDate,
                   swappedWith := some tgtId, swapStatus := some .accepted,
                   swapRequestedAt := some ts }))
        tgtId (fun r =>
          { r with memberId := src.memberId, assignmentDate := tgt.assignmentDate,
                   swappedWith := some srcId, swapStatus := some .accepted,
                   swapRequestedAt := some ts }) := by
    rw [executeSwap, htc]
    rfl
  refine ⟨?_, ?_, ?_, ?_, ?_, ?_, ?_⟩
  · exact map_memberPeriodOf_update tbl assignmentId
      (fun r => { r with swapStatus := some response.toStatus }) (fun r => rfl)
  · exact lookupRow_update_self tbl assignmentId
      (fun r => { r with swapStatus := some response.toStatus }) (fun r => rfl)
  · exact fun j hj => lookupRow_update_ne tbl assignmentId
      (fun r => { r with swapStatus := some response.toStatus }) (fun r => rfl) j hj
  · exact map_memberPeriodOf_update tbl assignmentId
      (fun r => { r with swapRequestedAt := some now,
                         swapRequestedBy := some reqMemberId,
                         swappedWith := some tgt.memberId,
                         swapStatus := some .pending })
      (fun r => rfl)
  · rw [hexec,
      lookupRow_update_ne _ tgtId
        (fun r => { r with memberId := src.memberId,
                           assignmentDate := tgt.assignmentDate,
                           swappedWith := some srcId, swapStatus := some .accepted,
                           swapRequestedAt := some ts })
        (fun r => rfl) srcId (Ne.symm hne),
      lookupRow_update_self _ srcId
        (fun r => { r with memberId := tgt.memberId,
                           assignmentDate := src.assignmentDate,
                           swappedWith := some tgtId, swapStatus := some .accepted,
                           swapRequestedAt := some ts })
        (fun r => rfl), hsrc]
    rfl
  · rw [hexec,
      lookupRow_update_self _ tgtId
        (fun r => { r with memberId := src.memberId,
                           assignmentDate := tgt.assignmentDate,
                           swappedWith := some srcId, swapStatus := some .accepted,
                           swapRequestedAt := some ts })
        (fun r => rfl),
      lookupRow_update_ne _ srcId
        (fun r => { r with memberId := tgt.memberId,
                           assignmentDate := src.assignmentDate,
                           swappedWith := some tgtId, swapStatus := some .accepted,
                           swapRequestedAt := some ts })
        (fun r => rfl) tgtId hne, htgt]
    rfl
  · intro j hjs hjt
    rw [hexec,
      lookupRow_update_ne _ tgtId
        (fun r => { r with memberId := src.memberId,
                           assignmentDate := tgt.assignmentDate,
                           swappedWith := some srcId, swapStatus := some .accepted,
                           swapRequestedAt := some ts })
        (fun r => rfl) j hjt,
      lookupRow_update_ne _ srcId
        (fun r => { r with memberId := tgt.memberId,
                           assignmentDate := src.assignmentDate,
                           swappedWith := some tgtId, swapStatus := some .accepted,
                           swapRequestedAt := some ts })
        (fun r => rfl) j hjs]

theorem claim_C9_witness :
    (respondToSwapRequest demoSwapTable 1 SwapDecision.accepted).map memberPeriodOf =
      demoSwapTable.map memberPeriodOf :=
  (claim_C9 demoSwapTable 1 10 .accepted "t1" 1 10 "2025-01-05" 2 11 "2025-01-12" "t2"
    ⟨1, 100, 10, "2025-01-05", false, none, none, some 11, some "t0", some 10,
      some .pending⟩
    ⟨2, 100, 11, "2025-01-12", false, none, none, none, none, none, none⟩
    (by decide) (by decide) (by decide) rfl rfl rfl rfl rfl).1

/-! ### C10: the suggested schedule for an even roster -/

/-- Consecutive disjoint pairs of a list, dropping a trailing odd element. -/
def pairChunks : List Nat → List (List Nat)
  | [] => []
  | [_] => []
  | a :: b :: t => [a, b] :: pairChunks t

theorem pairChunks_length : ∀ l : List Nat, (pairChunks l).length = l.length / 2
  | [] => rfl
  | [_] => by simp [pairChunks]
  | a :: b :: t => by
    simp only [pairChunks, List.length_cons, pairChunks_length t]
    omega

theorem pairChunks_flatten : ∀ l : List Nat, l.length % 2 = 0 → (pairChunks l).flatten = l
  | [], _ => rfl
  | [_], h => by simp at h
  | a :: b :: t, h => by
    have ht : t.length % 2 = 0 := by simp only [List.length_cons] at h; omega
    simp only [pairChunks, List.flatten_cons, pairChunks_flatten t ht]
    rfl

theorem orderedInsert_append_of_not {α : Type _} (r : α → α → Prop) [DecidableRel r]
    (x : α) : ∀ (Y L : List α), (∀ y ∈ Y, ¬ r x y) →
      List.orderedInsert r x (Y ++ L) = Y ++ List.orderedInsert r x L
  | [], _, _ => rfl
  | y :: Y, L, h => by
    rw [List.cons_append, List.orderedInsert, if_neg (h y (List.mem_cons_self y Y)),
      orderedInsert_append_of_not r x Y L (fun z hz => h z (List.mem_cons_of_mem y hz)),
      List.cons_append]

/-- Stable sorting a block of strictly larger elements followed by an
already-sorted block of strictly smaller ones moves the sorted block to the
front wholesale, leaving its internal order untouched. -/
theorem insertionSort_append_of_lt {α : Type _} (r : α → α → Prop) [DecidableRel r] :
    ∀ (X Y : List α), (∀ x ∈ X, ∀ y ∈ Y, ¬ r x y) → List.Sorted r Y →
      List.insertionSort r (X ++ Y) = Y ++ List.insertionSort r X
  | [], Y, _, hY => by
    rw [List.nil_append, hY.insertionSort_eq, List.insertionSort, List.append_nil]
  | x :: X, Y, h, hY => by
    rw [List.cons_append, List.insertionSort,
      insertionSort_append_of_lt r X Y
        (fun z hz => h z (List.mem_cons_of_mem x hz)) hY,
      orderedInsert_append_of_not r x Y _ (h x (List.mem_cons_self x X)),
      List.insertionSort]

theorem sorted_of_forall {α : Type _} (r : α → α → Prop) :
    ∀ (l : List α), (∀ x ∈ l, ∀ y ∈ l, r x y) → List.Sorted r l
  | [], _ => List.sorted_nil
  | x :: l, h => by
    rw [List.sorted_cons]
    exact ⟨fun y hy => h x (List.mem_cons_self x l) y (List.mem_cons_of_mem x hy),
      sorted_of_forall r l (fun a ha b hb =>
        h a (List.mem_cons_of_mem x ha) b (List.mem_cons_of_mem x hb))⟩

theorem assignMember_counts_self (s : EngineState) (i : Nat) (w : Int) :
    (assignMember s i w).counts i = s.counts i + 1 := by
  simp [assignMember]

theorem assignMember_counts_other (s : EngineState) (i : Nat) (w : Int) (j : Nat)
    (h : j ≠ i) : (assignMember s i w).counts j = s.counts j := by
  simp [assignMember, h]

theorem assignMember_last_other (s : EngineState) (i : Nat) (w : Int) (j : Nat)
    (h : j ≠ i) : (assignMember s i w).lastAssigned j = s.lastAssigned j := by
  simp [assignMember, h]

/-- Distinctness facts extracted from a roster with distinct ids, split
around the pair about to be chosen. -/
theorem nodup_mid {pre post : List Member} {a b : Member}
    (h : ((pre ++ (a :: b :: post)).map Member.id).Nodup) :
    a.id ≠ b.id ∧ (∀ m ∈ pre, m.id ≠ a.id ∧ m.id ≠ b.id) ∧
      (∀ m ∈ post, m.id ≠ a.id ∧ m.id ≠ b.id) := by
  rw [List.map_append, List.nodup_append] at h
  obtain ⟨-, h₂, hdisj⟩ := h
  simp only [List.map_cons, List.nodup_cons, List.mem_cons, List.mem_map,
    not_or] at h₂
  obtain ⟨⟨hab, hapost⟩, hbpost, -⟩ := h₂
  refine ⟨hab, ?_, ?_⟩
  · intro m hm
    have hma : m.id ∈ (pre.map Member.id) := List.mem_map_of_mem Member.id hm
    constructor
    · intro hc
      exact hdisj hma (by rw [hc]; exact List.mem_cons_self _ _)
    · intro hc
      exact hdisj hma (by rw [hc]; exact List.mem_cons_of_mem _ (List.mem_cons_self _ _))
  · intro m hm
    constructor
    · intro hc
      exact hapost ⟨m, hm, hc⟩
    · intro hc
      exact hbpost ⟨m, hm, hc⟩

/-- The pairing invariant of the preview on an even roster: starting from a
state where the not-yet-chosen suffix `C` is fresh, the immediately
preceding pair `B` is blocked, and all earlier members `A` are eligible with
one assignment each, the loop pairs off `C` two at a time in roster
order. -/
theorem previewLoop_paired (ms : List Member) (hids : (ms.map Member.id).Nodup) :
    ∀ (n w : Nat) (s : EngineState) (A B C : List Member),
      ms = A ++ (B ++ C) →
      (∀ m ∈ A, s.counts m.id = 1 ∧ s.lastAssigned m.id < (w : Int) - 1) →
      (∀ m ∈ B, s.counts m.id = 1 ∧ s.lastAssigned m.id = (w : Int) - 1) →
      (∀ m ∈ C, s.counts m.id = 0 ∧ s.lastAssigned m.id = -2) →
      C.length = 2 * n →
      previewLoop ms n w s = pairChunks (C.map Member.id) := by
  intro n
  induction n with
  | zero =>
    intro w s A B C hms hA hB hC hlen
    have hnil : C = [] := List.length_eq_zero.mp (by omega)
    rw [previewLoop, hnil]
    rfl
  | succ n ih =>
    intro w s A B C hms hA hB hC hlen
    obtain ⟨a, b, C', rfl⟩ : ∃ a b C', C = a :: b :: C' := by
      cases C with
      | nil => exact absurd hlen (by simp)
      | cons a t =>
        cases t with
        | nil => exact absurd hlen (by simp; omega)
        | cons b C' => exact ⟨a, b, C', rfl⟩
    have hnd : (((A ++ B) ++ (a :: b :: C')).map Member.id).Nodup := by
      rw [hms] at hids
      rw [List.append_assoc]
      exact hids
    obtain ⟨hab, hpre, hpost⟩ := nodup_mid hnd
    have hfA : ∀ m ∈ A, decide (s.lastAssigned m.id < (w : Int) - 1) = true :=
      fun m hm => decide_eq_true (hA m hm).2
    have hfB : ∀ m ∈ B, ¬ decide (s.lastAssigned m.id < (w : Int) - 1) = true :=
      fun m hm => by
        rw [(hB m hm).2]
        simp
    have hfC : ∀ m ∈ a :: b :: C',
        decide (s.lastAssigned m.id < (w : Int) - 1) = true := fun m hm => by
      rw [(hC m hm).2]
      have : (0 : Int) ≤ (w : Int) := Int.natCast_nonneg w
      exact decide_eq_true (by omega)
    have hfilter :
        ms.filter (fun m => s.lastAssigned m.id < (w : Int) - 1) =
          A ++ (a :: b :: C') := by
      rw [hms, List.filter_append, List.filter_append,
        List.filter_eq_self.mpr hfA, List.filter_eq_nil_iff.mpr hfB,
        List.filter_eq_self.mpr hfC, List.nil_append]
    have hXY : ∀ x ∈ A, ∀ y ∈ a :: b :: C', ¬ fairLe s x y := by
      intro x hx y hy hcon
      have hcx := (hA x hx).1
      have hcy := (hC y hy).1
      rcases hcon with hlt | ⟨heq, -⟩
      · rw [hcx, hcy] at hlt
        omega
      · rw [hcx, hcy] at heq
        omega
    have hsortedC : List.Sorted (fairLe s) (a :: b :: C') := by
      refine sorted_of_forall _ _ ?_
      intro x hx y hy
      right
      rw [(hC x hx).1, (hC y hy).1, (hC x hx).2, (hC y hy).2]
      exact ⟨rfl, le_refl _⟩
    have havail : availableFor s ms w =
        a :: b :: (C' ++ List.insertionSort (fairLe s) A) := by
      rw [availableFor, hfilter, insertionSort_append_of_lt _ _ _ hXY hsortedC,
        List.cons_append, List.cons_append]
    rw [previewLoop, havail]
    simp only
    have hmemA : ∀ m ∈ A, m.id ≠ a.id ∧ m.id ≠ b.id := fun m hm =>
      hpre m (List.mem_append_left B hm)
    have hmemB : ∀ m ∈ B, m.id ≠ a.id ∧ m.id ≠ b.id := fun m hm =>
      hpre m (List.mem_append_right A hm)
    have hstep := ih (w + 1)
      (assignMember (assignMember s a.id (w : Int)) b.id (w : Int))
      (A ++ B) [a, b] C' ?_ ?_ ?_ ?_ ?_
    · rw [hstep, List.map_cons, List.map_cons, pairChunks]
    · rw [hms]
      simp [List.append_assoc]
    · intro m hm
      have hne := hpre m hm
      rw [assignMember_counts_other _ _ _ _ hne.2,
        assignMember_counts_other _ _ _ _ hne.1,
        assignMember_last_other _ _ _ _ hne.2,
        assignMember_last_other _ _ _ _ hne.1]
      rcases List.mem_append.mp hm with hm' | hm'
      · have := hA m hm'
        refine ⟨this.1, ?_⟩
        have h2 := this.2
        push_cast
        omega
      · have := hB m hm'
        refine ⟨this.1, ?_⟩
        rw [this.2]
        push_cast
        omega
    · intro m hm
      have hlast := double_assign_last s a.id b.id (w : Int)
      rcases List.mem_cons.mp hm with rfl | hm'
      · refine ⟨?_, ?_⟩
        · rw [assignMember_counts_other _ _ _ _ hab, assignMember_counts_self,
            (hC m (List.mem_cons_self _ _)).1]
        · rw [hlast.1]
          push_cast
          omega
      · rcases List.mem_cons.mp hm' with rfl | hm''
        · refine ⟨?_, ?_⟩
          · rw [assignMember_counts_self, assignMember_counts_other _ _ _ _
              (Ne.symm hab), (hC m (List.mem_cons_of_mem _ (List.mem_cons_self _ _))).1]
          · rw [hlast.2]
            push_cast
            omega
        · exact absurd hm'' (by simp)
    · intro m hm
      have hne := hpost m hm
      rw [assignMember_counts_other _ _ _ _ hne.2,
        assignMember_counts_other _ _ _ _ hne.1,
        assignMember_last_other _ _ _ _ hne.2,
        assignMember_last_other _ _ _ _ hne.1]
      exact hC m (List.mem_cons_of_mem _ (List.mem_cons_of_mem _ hm))
    · simp only [List.length_cons] at hlen
      omega

/-- C10: for an even roster of `m ≥ 2` distinct members,
`calculateWeeksNeeded` is `m / 2`, and the suggested preview for that length
pairs the roster off in order — `m / 2` weeks in which every member appears
exactly once. -/
theorem claim_C10 (ms : List Member) (hids : (ms.map Member.id).Nodup)
    (h2 : 2 ≤ ms.length) (heven : ms.length % 2 = 0) :
    calculateWeeksNeeded ms = ms.length / 2 ∧
    generateBalancedPreview ms (calculateWeeksNeeded ms) =
      pairChunks (ms.map Member.id) ∧
    (generateBalancedPreview ms (calculateWeeksNeeded ms)).length = ms.length / 2 ∧
    ∀ m ∈ ms,
      (generateBalancedPreview ms (calculateWeeksNeeded ms)).flatten.count m.id = 1 := by
  have hcalc : calculateWeeksNeeded ms = ms.length / 2 := by
    rw [calculateWeeksNeeded, if_neg (by omega), if_pos heven]
  have heff : (if 1 < ms.length / 2 ∧ ms.length < 4 then 1 else ms.length / 2) =
      ms.length / 2 := by
    rcases (by omega : ms.length = 2 ∨ 4 ≤ ms.length) with hc | hc
    · rw [if_neg (by omega)]
    · rw [if_neg (by omega)]
  have hprev : generateBalancedPreview ms (calculateWeeksNeeded ms) =
      pairChunks (ms.map Member.id) := by
    rw [hcalc, generateBalancedPreview, if_neg (by push_neg; omega)]
    simp only [heff]
    exact previewLoop_paired ms hids (ms.length / 2) 0 initState [] [] ms rfl
      (by intro m hm; exact absurd hm (by simp))
      (by intro m hm; exact absurd hm (by simp))
      (fun m _ => ⟨rfl, rfl⟩)
      (by omega)
  refine ⟨hcalc, hprev, ?_, ?_⟩
  · rw [hprev, pairChunks_length, List.length_map]
  · intro m hm
    rw [hprev, pairChunks_flatten _ (by rw [List.length_map]; exact heven)]
    exact List.count_eq_one_of_mem hids (List.mem_map_of_mem Member.id hm)

theorem claim_C10_witness :
    generateBalancedPreview demoMembers (calculateWeeksNeeded demoMembers) =
      pairChunks (demoMembers.map Member.id) :=
  (claim_C10 demoMembers (by decide) (by decide) (by decide)).2.1

end CleanFair
